import Mathlib

/-!
Verification of the remacs hash-table engine (`src/rust_src/src/hashtable.rs`)
against its natural-language specification.

The Rust module is shallowly embedded: the mutable `LispHashTable` behind an
`ExternalPtr` becomes explicit state passing on a Lean structure, and the
backing `FnvHashMap` becomes an association list whose probe predicate mirrors
the map's behaviour (an entry is found iff its stored hash equals the query's
hash and the strategy's equality accepts the pair — exactly the bucket-then-`Eq`
discipline of the Rust map).  The interpreter's general object representation
(`LispObject`, from the repository's `lisp.rs`, which is outside `src/`) and the
runtime collaborators (`call!`, `lists::get`, `sxhash`, `purecopy`) are modelled
from the spec, as noted on each definition.
-/

namespace Remacs

/-- Modelled from the spec: the interpreter's object representation (the
repository's `lisp.rs` is not under `src/`).  Conses and strings carry an
allocation address so that identity (`eq`) and structural (`equal`) comparison
differ; floats are abstracted to their numeric value (no claim here depends on
distinguishing two float boxes of equal value); `vectorlike` stands for any
other heap object, compared by address. -/
inductive LispObject where
  | symbol : String → LispObject
  | int : Int → LispObject
  | float : Rat → LispObject
  | cons : Nat → LispObject → LispObject → LispObject
  | str : Nat → String → LispObject
  | vectorlike : Nat → LispObject
deriving DecidableEq, Repr

/-- The runtime's canonical null-like value, `LispObject::constant_nil()`. -/
def LispObject.constant_nil : LispObject := .symbol "nil"

/-- The runtime's true constant, `LispObject::constant_t()`. -/
def LispObject.constant_t : LispObject := .symbol "t"

/-- Modelled from the spec: identity comparison (`LispObject::eq`, raw tagged
word equality).  Symbols are interned, so symbols are identical iff their names
are; fixnums are immediate, so identical iff equal; boxed objects are identical
iff their addresses coincide. -/
def LispObject.eq : LispObject → LispObject → Bool
  | .symbol s1, .symbol s2 => s1 == s2
  | .int m, .int n => m == n
  | .float p, .float q => p == q
  | .cons a _ _, .cons b _ _ => a == b
  | .str a _, .str b _ => a == b
  | .vectorlike a, .vectorlike b => a == b
  | _, _ => false

/-- Modelled from the spec: numeric-aware identity (`LispObject::eql`): like
`eq` except floats compare by numeric content. -/
def LispObject.eql (a b : LispObject) : Bool :=
  match a, b with
  | .float p, .float q => p == q
  | _, _ => a.eq b

/-- Modelled from the spec: deep structural equality (`LispObject::equal`):
conses recursively, strings by content, otherwise like `eql`. -/
def LispObject.equal : LispObject → LispObject → Bool
  | .cons _ a d, .cons _ a2 d2 => a.equal a2 && d.equal d2
  | .str _ s1, .str _ s2 => s1 == s2
  | a, b => a.eql b

def LispObject.is_not_nil (o : LispObject) : Bool := !(o.eq .constant_nil)

def LispObject.is_float : LispObject → Bool
  | .float _ => true
  | _ => false

def LispObject.is_cons : LispObject → Bool
  | .cons _ _ _ => true
  | _ => false

/-- `as_cons_unchecked().car()`; only ever applied after an `is_cons` guard in
the source, so the non-cons default is never observable. -/
def LispObject.car : LispObject → LispObject
  | .cons _ a _ => a
  | _ => .constant_nil

/-- `as_cons_unchecked().cdr()`; only ever applied after an `is_cons` guard. -/
def LispObject.cdr : LispObject → LispObject
  | .cons _ _ d => d
  | _ => .constant_nil

/-- `as_natnum_or_error`: a natnum is a non-negative fixnum; anything else
signals a wrong-type error. -/
def LispObject.as_natnum : LispObject → Option Int
  | .int n => if 0 ≤ n then some n else none
  | _ => none

/-- Modelled from the spec: the derived `Hash` of a raw `LispObject` (hash of
the tagged word): a function of the object's identity.  Objects that are `eq`
receive equal hashes; unequal objects may collide. -/
def LispObject.idHash : LispObject → Nat
  | .symbol s => 2 * s.length
  | .int n => 2 * n.natAbs + 1
  | .float q => 4 * q.den + 2
  | .cons a _ _ => 8 * a + 3
  | .str a _ => 8 * a + 5
  | .vectorlike a => 8 * a + 7

/-- Modelled from the spec: the content-hash primitive `sxhash` used by the
deep-structural strategy: a function of the object's structure, ignoring
allocation addresses of conses and strings. -/
def LispObject.sxhash : LispObject → Nat
  | .symbol s => 2 * s.length
  | .int n => 2 * n.natAbs + 1
  | .float q => 4 * q.den + 2
  | .cons _ a d => 3 * a.sxhash + 5 * d.sxhash + 9
  | .str _ s => 8 * s.length + 5
  | .vectorlike a => 8 * a + 7

/-- Modelled from the spec: the runtime's recursive pure-copy primitive.  It
produces a content-identical copy residing in the permanent arena; arena
residency is not observable in this model, so the copy is the value itself. -/
def LispObject.purecopy (o : LispObject) : LispObject := o

/-- Interned symbols used by the hash-table module. -/
def Qeq : LispObject := .symbol "eq"

def Qeql : LispObject := .symbol "eql"

def Qequal : LispObject := .symbol "equal"

def QCtest : LispObject := .symbol ":test"

def QCsize : LispObject := .symbol ":size"

def QCweakness : LispObject := .symbol ":weakness"

def QCpurecopy : LispObject := .symbol ":purecopy"

def Qkey_and_value : LispObject := .symbol "key-and-value"

def Qhash_table_test : LispObject := .symbol "hash-table-test"

/-- Modelled from the spec: the host-runtime collaborators the engine consumes —
the callable-invocation primitive (`call!`, for user-defined hash and comparator
functions) and the registry lookup for named custom tests (`lists::get`, whose
module is not under `src/`). -/
structure Runtime where
  call1 : LispObject → LispObject → LispObject
  call2 : LispObject → LispObject → LispObject → LispObject
  listsGet : LispObject → LispObject → LispObject

/-- A concrete runtime instance, used to evaluate the model on closed inputs:
user functions all return nil, the custom-test registry is empty. -/
def rtDefault : Runtime :=
  { call1 := fun _ _ => LispObject.constant_nil
    call2 := fun _ _ _ => LispObject.constant_nil
    listsGet := fun _ _ => LispObject.constant_nil }

/-- The `HashFunction` enum of the source: the table's Equality Strategy. -/
inductive HashFunction where
  | Eq : HashFunction
  | Eql : HashFunction
  | Equal : HashFunction
  | UserFunc : LispObject → LispObject → LispObject → HashFunction
deriving DecidableEq, Repr

/-- `HashableLispObject`: a raw value paired with the strategy used to hash and
compare it. -/
structure HashableLispObject where
  object : LispObject
  func : HashFunction
deriving DecidableEq, Repr

def HashableLispObject.with_hashfunc_and_object (o : LispObject)
    (f : HashFunction) : HashableLispObject :=
  { object := o, func := f }

/-- The `Hash` impl of `HashableLispObject`: `Eq` hashes the raw word; `Eql`
hashes floats by content (`sxhash`) and everything else by identity; `Equal`
hashes by content; `UserFunc` hashes the result of calling the user hash
function on the object. -/
def strategyHash (rt : Runtime) : HashFunction → LispObject → Nat
  | .Eq, o => o.idHash
  | .Eql, o => if o.is_float then o.sxhash else o.idHash
  | .Equal, o => o.sxhash
  | .UserFunc _ _ hashfn, o => (rt.call1 hashfn o).idHash

/-- The `PartialEq` impl of `HashableLispObject`, dispatching on the wrapper's
strategy: `eq`, `eql`, `equal`, or the user comparator (true iff its result is
not nil). -/
def strategyEq (rt : Runtime) : HashFunction → LispObject → LispObject → Bool
  | .Eq, a, b => a.eq b
  | .Eql, a, b => a.eql b
  | .Equal, a, b => a.equal b
  | .UserFunc _ cmpfn _, a, b => (rt.call2 cmpfn a b).is_not_nil

/-- The probe predicate of the backing map: a query wrapper finds a stored
wrapper iff their hashes agree (same bucket) and the query's strategy equality
accepts the pair — the bucket-then-`Eq` discipline of the Rust `FnvHashMap`. -/
def hMatch (rt : Runtime) (q s : HashableLispObject) : Bool :=
  (strategyHash rt q.func q.object == strategyHash rt s.func s.object) &&
    strategyEq rt q.func q.object s.object

/-- `FnvHashMap::insert`: replace the value of the (unique) matching entry,
keeping the stored key, else append a fresh entry. -/
def listInsert (rt : Runtime) (k v : HashableLispObject) :
    List (HashableLispObject × HashableLispObject) →
    List (HashableLispObject × HashableLispObject)
  | [] => [(k, v)]
  | (k2, v2) :: rest =>
    if hMatch rt k k2 then (k2, v) :: rest
    else (k2, v2) :: listInsert rt k v rest

/-- `FnvHashMap::get`: the value of the first matching entry, if any. -/
def listGet (rt : Runtime) (k : HashableLispObject) :
    List (HashableLispObject × HashableLispObject) → Option HashableLispObject
  | [] => none
  | (k2, v2) :: rest => if hMatch rt k k2 then some v2 else listGet rt k rest

/-- `FnvHashMap::remove`: drop the first matching entry, if any. -/
def listRemove (rt : Runtime) (k : HashableLispObject) :
    List (HashableLispObject × HashableLispObject) →
    List (HashableLispObject × HashableLispObject)
  | [] => []
  | (k2, v2) :: rest =>
    if hMatch rt k k2 then rest else (k2, v2) :: listRemove rt k rest

/-- The `LispHashTable` struct.  The allocator-owned `header` framing carries no
engine-visible state and is not modelled as data (its marking is modelled in
`mark_hashtable`). -/
structure LispHashTable where
  weak : LispObject
  is_pure : Bool
  func : HashFunction
  map : List (HashableLispObject × HashableLispObject)
deriving DecidableEq, Repr

/-- `LispHashTable::with_capacity`: capacity is carried by the backing store
only as a growth hint and has no observable content. -/
def LispHashTable.with_capacity (_cap : Nat) : LispHashTable :=
  { weak := LispObject.constant_nil
    is_pure := false
    func := HashFunction.Eq
    map := [] }

/-- `LispHashTable::new()`, i.e. `with_capacity(65)`. -/
def LispHashTable.new : LispHashTable := LispHashTable.with_capacity 65

/-- `map_put`: wrap key and value with the table's strategy, insert or
overwrite, return the value.  The mutation of the pointed-to table becomes an
updated table in the result. -/
def map_put (rt : Runtime) (t : LispHashTable) (k v : LispObject) :
    LispHashTable × LispObject :=
  let key := HashableLispObject.with_hashfunc_and_object k t.func
  let value := HashableLispObject.with_hashfunc_and_object v t.func
  ({ t with map := listInsert rt key value t.map }, v)

/-- `map_get`: wrap the key, look up; the stored value's object, or nil. -/
def map_get (rt : Runtime) (t : LispHashTable) (k : LispObject) : LispObject :=
  let key := HashableLispObject.with_hashfunc_and_object k t.func
  match listGet rt key t.map with
  | none => LispObject.constant_nil
  | some v => v.object

/-- `map_rm`: wrap the key, remove the entry if present; returns the table. -/
def map_rm (rt : Runtime) (t : LispHashTable) (k : LispObject) : LispHashTable :=
  let key := HashableLispObject.with_hashfunc_and_object k t.func
  { t with map := listRemove rt key t.map }

/-- `map_clear`: empty the backing store; returns the table. -/
def map_clear (t : LispHashTable) : LispHashTable :=
  { t with map := [] }

/-- `map_count`: `from_natnum(map.len())`. -/
def map_count (t : LispHashTable) : LispObject :=
  LispObject.int (t.map.length : Int)

/-- `map_test`: the canonical identifier of the active strategy. -/
def map_test (t : LispHashTable) : LispObject :=
  match t.func with
  | .Eq => Qeq
  | .Eql => Qeql
  | .Equal => Qequal
  | .UserFunc name _ _ => name

/-- `map_rehash_size`: fixed legacy constant `0.5`, the argument is ignored. -/
def map_rehash_size (_t : LispHashTable) : LispObject :=
  LispObject.float (0.5 : Rat)

/-- `map_rehash_threshold`: fixed legacy constant `0.8125`. -/
def map_rehash_threshold (_t : LispHashTable) : LispObject :=
  LispObject.float (0.8125 : Rat)

/-- The ways `make_hash_map` can abort: the dead `panic!("Inproper args list")`
guard, the Rust slice index panic it actually falls into on odd-length input,
the `panic!("Invalid hash table test")` for a malformed custom-test registry
entry, and `as_natnum_or_error`'s wrong-type signal on a bad `:size` value. -/
inductive MakeErr where
  | malformedArguments : MakeErr
  | indexOutOfBounds : MakeErr
  | invalidHashTableTest : MakeErr
  | wrongTypeArgument : MakeErr
deriving DecidableEq, Repr

/-- The option loop of `make_hash_map`.  The source iterates `i` by 2 while
`i < len`; with `len = i + 1 + rest.length` at the head of an iteration, the
guard `i + 1 > len` is `rest.length < 0` and can never fire, so an odd-length
list instead reaches the out-of-bounds access `args[i + 1]` (the singleton
case below).  Recognized keys are `:test`, `:purecopy`, `:size`, `:weakness`;
any other key falls through the `if` chain and is silently ignored. -/
def makeHashMapLoop (rt : Runtime) :
    LispHashTable → List LispObject → Except MakeErr LispHashTable
  | tbl, [] => .ok tbl
  | tbl, key :: rest =>
    if rest.length < 0 then .error .malformedArguments
    else
      match rest with
      | [] => .error .indexOutOfBounds
      | value :: rest2 =>
        if key.eq QCtest then
          if value.eq Qeq then makeHashMapLoop rt { tbl with func := .Eq } rest2
          else if value.eq Qeql then
            makeHashMapLoop rt { tbl with func := .Eql } rest2
          else if value.eq Qequal then
            makeHashMapLoop rt { tbl with func := .Equal } rest2
          else
            let prop := rt.listsGet value Qhash_table_test
            if !prop.is_cons || !prop.cdr.is_cons then
              .error .invalidHashTableTest
            else
              makeHashMapLoop rt
                { tbl with func := .UserFunc value prop.car prop.cdr.car } rest2
        else if key.eq QCpurecopy then
          makeHashMapLoop rt { tbl with is_pure := true } rest2
        else if key.eq QCsize then
          match value.as_natnum with
          | some _ => makeHashMapLoop rt tbl rest2
          | none => .error .wrongTypeArgument
        else if key.eq QCweakness then
          let t1 := { tbl with weak := value }
          let t2 :=
            if value.eq LispObject.constant_t then { t1 with weak := Qkey_and_value }
            else t1
          makeHashMapLoop rt t2 rest2
        else makeHashMapLoop rt tbl rest2

/-- `make_hash_map`: allocate a fresh default table and run the option loop
over the argument list. -/
def make_hash_map (rt : Runtime) (args : List LispObject) :
    Except MakeErr LispHashTable :=
  makeHashMapLoop rt LispHashTable.new args

/-- What one `mark_hashtable` call marks: `framing` records the unconditional
`mark_vectorlike` on the table's own header, `marked` the `mark_object` calls
in order — the three `UserFunc` references when the strategy is user-defined,
then, only when `weak` is not nil, every key and value of the entries. -/
structure MarkResult where
  framing : Bool
  marked : List LispObject
deriving DecidableEq, Repr

/-- `mark_hashtable`. -/
def mark_hashtable (t : LispHashTable) : MarkResult :=
  let funcMarks :=
    match t.func with
    | .UserFunc name cmpfn hashfn => [name, cmpfn, hashfn]
    | _ => []
  let entryMarks :=
    if t.weak.is_not_nil then
      t.map.foldr (fun p acc => p.1.object :: p.2.object :: acc) []
    else []
  { framing := true, marked := funcMarks ++ entryMarks }

/-- `pure_copy_hashtable`: pure-copy the strategy's function references when
user-defined, set `weak` to a pure copy of nil, copy the source's purity flag,
and rebuild the store by inserting the pure copy of every entry into a fresh
map sized to the source's entry count. -/
def pure_copy_hashtable (rt : Runtime) (t : LispHashTable) : LispHashTable :=
  let f :=
    match t.func with
    | .UserFunc name cmpfn hashfn =>
      HashFunction.UserFunc name.purecopy cmpfn.purecopy hashfn.purecopy
    | g => g
  { weak := LispObject.constant_nil.purecopy
    is_pure := t.is_pure
    func := f
    map :=
      t.map.foldl
        (fun m p =>
          listInsert rt
            { object := p.1.object.purecopy, func := p.1.func }
            { object := p.2.object.purecopy, func := p.2.func } m)
        [] }

/-- The mutator-visible heap: the boxed `LispHashTable`s (handles are list
indices) together with the process-wide weak table chain.  The chain itself is
modelled from the spec (the collector-owned registration of weak tables), since
for these boxed tables the source never materialises it — `map_copy` carries
only the `@TODO` to do so. -/
structure Heap where
  tables : List LispHashTable
  weakChain : List Nat
deriving DecidableEq, Repr

/-- `map_copy`: dereference the handle, clone the table (independent backing
store) into a fresh box, and return the new handle.  No weak-chain
registration is performed, whatever the source's weakness.  A dangling handle
is undefined behaviour in the source; the model's default for it is a fresh
default table. -/
def map_copy (h : Heap) (i : Nat) : Heap × Nat :=
  ({ tables := h.tables ++ [h.tables.getD i LispHashTable.new]
     weakChain := h.weakChain },
   h.tables.length)

/-- `n` successive `map_put` calls (state-passed). -/
def putAll (rt : Runtime) (t : LispHashTable)
    (kvs : List (LispObject × LispObject)) : LispHashTable :=
  kvs.foldl (fun acc kv => (map_put rt acc kv.1 kv.2).1) t

/-- successive `map_rm` calls (state-passed). -/
def rmAll (rt : Runtime) (t : LispHashTable) (ks : List LispObject) :
    LispHashTable :=
  ks.foldl (fun acc k => map_rm rt acc k) t

theorem LispObject.eq_self (a : LispObject) : a.eq a = true := by
  cases a <;> simp [LispObject.eq]

theorem LispObject.eql_self (a : LispObject) : a.eql a = true := by
  cases a <;> simp [LispObject.eql, LispObject.eq]

theorem LispObject.equal_self (a : LispObject) : a.equal a = true := by
  induction a with
  | cons n a d iha ihd => simp [LispObject.equal, iha, ihd]
  | str n s => simp [LispObject.equal]
  | _ => simp [LispObject.equal, LispObject.eql_self]

/-- Every built-in strategy's equality is reflexive; a user-defined strategy is
reflexive at `a` exactly when its comparator accepts `(a, a)`. -/
theorem strategyEq_self (rt : Runtime) (f : HashFunction) (a : LispObject)
    (h : match f with
         | .UserFunc _ cmpfn _ => (rt.call2 cmpfn a a).is_not_nil = true
         | _ => True) :
    strategyEq rt f a a = true := by
  cases f with
  | Eq => simp [strategyEq, LispObject.eq_self]
  | Eql => simp [strategyEq, LispObject.eql_self]
  | Equal => simp [strategyEq, LispObject.equal_self]
  | UserFunc name cmpfn hashfn => simpa [strategyEq] using h

theorem hMatch_self (rt : Runtime) (f : HashFunction) (a : LispObject)
    (h : strategyEq rt f a a = true) :
    hMatch rt ⟨a, f⟩ ⟨a, f⟩ = true := by
  simp [hMatch, h]

theorem listGet_eq_none (rt : Runtime) (q : HashableLispObject)
    (L : List (HashableLispObject × HashableLispObject))
    (h : ∀ p ∈ L, hMatch rt q p.1 = false) : listGet rt q L = none := by
  induction L with
  | nil => rfl
  | cons p rest ih =>
    obtain ⟨k2, v2⟩ := p
    have hk : hMatch rt q k2 = false := h (k2, v2) (List.mem_cons_self _ _)
    simp only [listGet, hk, Bool.false_eq_true, if_false]
    exact ih fun p hp => h p (List.mem_cons_of_mem _ hp)

theorem listGet_listInsert_self (rt : Runtime) (f : HashFunction)
    (a v : LispObject) (L : List (HashableLispObject × HashableLispObject))
    (h : strategyEq rt f a a = true) :
    listGet rt ⟨a, f⟩ (listInsert rt ⟨a, f⟩ ⟨v, f⟩ L) = some ⟨v, f⟩ := by
  induction L with
  | nil => simp [listInsert, listGet, hMatch_self rt f a h]
  | cons p rest ih =>
    obtain ⟨k2, v2⟩ := p
    by_cases hm : hMatch rt ⟨a, f⟩ k2 = true
    · simp [listInsert, listGet, hm]
    · simp only [Bool.not_eq_true] at hm
      simp [listInsert, listGet, hm, ih]

/-- C1: `mark_hashtable` is meant to mark every key and value of a strong
(`weakness = none`) table and nothing of a weak table's entries; the source's
condition `ptr.weak.is_not_nil()` is inverted, so a strong table with an entry
marks no entries while a weak table marks all of them. -/
theorem c1_mark_entries_inverted :
    (mark_hashtable
        { weak := LispObject.constant_nil, is_pure := false, func := .Eq,
          map := [(⟨.int 1, .Eq⟩, ⟨.int 2, .Eq⟩)] }).marked = []
    ∧ (mark_hashtable
        { weak := LispObject.symbol "key", is_pure := false, func := .Eq,
          map := [(⟨.int 1, .Eq⟩, ⟨.int 2, .Eq⟩)] }).marked
        = [.int 1, .int 2] := by
  decide

/-- C2 (counterexample): the claim asserts `pure_copy` always yields
`purity = true`, even when the source table's purity flag is false; on such a
source the code copies the flag, so the result reports `purity = false`. -/
theorem c2_counterexample :
    ¬ ((pure_copy_hashtable rtDefault
          { weak := LispObject.symbol "key", is_pure := false, func := .Eq,
            map := [] }).weak = LispObject.constant_nil
       ∧ (pure_copy_hashtable rtDefault
          { weak := LispObject.symbol "key", is_pure := false, func := .Eq,
            map := [] }).is_pure = true) := by
  decide

/-- C2 (amended): for every table `t` (weak ones included), `pure_copy(t)` has
`weakness = none` and purity equal to `t`'s own purity flag — in particular
`purity = true` whenever the source was flagged pure. -/
theorem c2_pure_copy_fields (rt : Runtime) (t : LispHashTable) :
    (pure_copy_hashtable rt t).weak = LispObject.constant_nil
    ∧ (pure_copy_hashtable rt t).is_pure = t.is_pure :=
  ⟨rfl, rfl⟩

/-- C3: an odd-length option list is meant to fail with `MalformedArguments`
(the source's `panic!("Inproper args list")`), but that guard — `i + 1 > len`
under the loop condition `i < len` — can never fire; the call instead dies on
the out-of-bounds access `args[i + 1]`. -/
theorem c3_odd_args_out_of_bounds :
    make_hash_map rtDefault [QCtest] = .error .indexOutOfBounds
    ∧ MakeErr.indexOutOfBounds ≠ MakeErr.malformedArguments :=
  ⟨rfl, by decide⟩

/-- C5: duplicating a weak table through `map_copy` yields an independent
box with identical contents (count, strategy, weakness preserved), but the
process-wide weak chain is left untouched — the duplicate is never linked
after the source, contrary to the claim (the source carries a `@TODO` for
exactly this registration). -/
theorem c5_map_copy_skips_weak_chain :
    (map_copy
        { tables := [{ weak := LispObject.symbol "key", is_pure := false,
                       func := .Eq,
                       map := [(⟨.int 1, .Eq⟩, ⟨.int 2, .Eq⟩)] }],
          weakChain := [] } 0).1.tables
      = [{ weak := LispObject.symbol "key", is_pure := false, func := .Eq,
           map := [(⟨.int 1, .Eq⟩, ⟨.int 2, .Eq⟩)] },
         { weak := LispObject.symbol "key", is_pure := false, func := .Eq,
           map := [(⟨.int 1, .Eq⟩, ⟨.int 2, .Eq⟩)] }]
    ∧ (map_copy
        { tables := [{ weak := LispObject.symbol "key", is_pure := false,
                       func := .Eq,
                       map := [(⟨.int 1, .Eq⟩, ⟨.int 2, .Eq⟩)] }],
          weakChain := [] } 0).1.weakChain = []
    ∧ (LispObject.symbol "key").is_not_nil = true := by
  decide

/-- C6: looking up a key that matches no stored entry under the table's
strategy returns the canonical absent sentinel nil; `map_get` is total, so a
miss is never an error. -/
theorem c6_get_absent_is_nil (rt : Runtime) (t : LispHashTable)
    (k : LispObject)
    (h : ∀ p ∈ t.map, hMatch rt ⟨k, t.func⟩ p.1 = false) :
    map_get rt t k = LispObject.constant_nil := by
  have hn := listGet_eq_none rt ⟨k, t.func⟩ t.map h
  simp [map_get, HashableLispObject.with_hashfunc_and_object, hn]

theorem c6_witness :
    map_get rtDefault LispHashTable.new (.int 0) = LispObject.constant_nil :=
  c6_get_absent_is_nil rtDefault LispHashTable.new (.int 0)
    (by intro p hp; simp [LispHashTable.new, LispHashTable.with_capacity] at hp)

/-- C7: if the `:test` option is none of the three built-in names and the
registry entry for it (`get(value, 'hash-table-test)`) is not a pair of a
comparator and a hash function — not a cons whose cdr is a cons — the
configuration call fails with the malformed-test-definition error. -/
theorem c7_malformed_test_definition (rt : Runtime) (tbl : LispHashTable)
    (v : LispObject) (rest : List LispObject)
    (h1 : v.eq Qeq = false) (h2 : v.eq Qeql = false) (h3 : v.eq Qequal = false)
    (h4 : (rt.listsGet v Qhash_table_test).is_cons = false
          ∨ (rt.listsGet v Qhash_table_test).cdr.is_cons = false) :
    makeHashMapLoop rt tbl (QCtest :: v :: rest)
      = .error .invalidHashTableTest := by
  have hq : QCtest.eq QCtest = true := by decide
  rcases h4 with h | h <;> simp [makeHashMapLoop, hq, h1, h2, h3, h]

theorem c7_witness :
    makeHashMapLoop rtDefault LispHashTable.new
        [QCtest, LispObject.symbol "my-test"]
      = .error .invalidHashTableTest :=
  c7_malformed_test_definition rtDefault LispHashTable.new
    (LispObject.symbol "my-test") [] (by decide) (by decide) (by decide)
    (Or.inl (by decide))

/-- C8: the legacy accessors ignore their argument and return the fixed
constants `0.5` and `0.8125` for every table, however it was configured. -/
theorem c8_rehash_constants (t : LispHashTable) :
    map_rehash_size t = LispObject.float (0.5 : Rat)
    ∧ map_rehash_threshold t = LispObject.float (0.8125 : Rat) :=
  ⟨rfl, rfl⟩

/-- C10: in `make_hash_map`, a `:weakness` option whose value is the constant
`t` stores the key-and-value marker, any other weakness value is stored
unchanged, and an option key other than `:test`, `:size`, `:weakness` and
`:purecopy` is silently skipped. -/
theorem c10_weakness_and_ignored_options (rt : Runtime) (tbl : LispHashTable)
    (v k : LispObject) (rest : List LispObject) :
    (makeHashMapLoop rt tbl (QCweakness :: v :: rest)
      = makeHashMapLoop rt
          { tbl with
            weak := if v.eq LispObject.constant_t then Qkey_and_value else v }
          rest)
    ∧ (make_hash_map rt [QCweakness, v]
      = .ok { LispHashTable.new with
              weak := if v.eq LispObject.constant_t then Qkey_and_value else v })
    ∧ (k.eq QCtest = false → k.eq QCpurecopy = false → k.eq QCsize = false →
       k.eq QCweakness = false →
       makeHashMapLoop rt tbl (k :: v :: rest) = makeHashMapLoop rt tbl rest) := by
  have e1 : QCweakness.eq QCtest = false := by decide
  have e2 : QCweakness.eq QCpurecopy = false := by decide
  have e3 : QCweakness.eq QCsize = false := by decide
  have e4 : QCweakness.eq QCweakness = true := by decide
  have step : ∀ (tb : LispHashTable) (rs : List LispObject),
      makeHashMapLoop rt tb (QCweakness :: v :: rs)
        = makeHashMapLoop rt
            { tb with
              weak := if v.eq LispObject.constant_t then Qkey_and_value else v }
            rs := by
    intro tb rs
    by_cases hv : v.eq LispObject.constant_t
    · simp [makeHashMapLoop, e1, e2, e3, e4, hv]
    · simp only [Bool.not_eq_true] at hv
      simp [makeHashMapLoop, e1, e2, e3, e4, hv]
  refine ⟨step tbl rest, ?_, ?_⟩
  · rw [make_hash_map, step LispHashTable.new []]
    rfl
  · intro g1 g2 g3 g4
    simp [makeHashMapLoop, g1, g2, g3, g4]

theorem c10_witness :
    makeHashMapLoop rtDefault LispHashTable.new
        [LispObject.symbol ":color", LispObject.int 1]
      = makeHashMapLoop rtDefault LispHashTable.new []
    ∧ make_hash_map rtDefault [QCweakness, LispObject.constant_t]
      = .ok { LispHashTable.new with weak := Qkey_and_value } := by
  constructor
  · exact (c10_weakness_and_ignored_options rtDefault LispHashTable.new
      (LispObject.int 1) (LispObject.symbol ":color") []).2.2
      (by decide) (by decide) (by decide) (by decide)
  · have h := (c10_weakness_and_ignored_options rtDefault LispHashTable.new
      LispObject.constant_t (LispObject.int 0) []).2.1
    have he : LispObject.constant_t.eq LispObject.constant_t = true := by decide
    simpa [he] using h

/-- C4: for a table of any built-in strategy — and of a user-defined strategy
whose comparator behaves as an equality (in particular accepts `(a, a)`) —
`put(t, a, v)` followed by `get(t, a)` returns `v`. -/
theorem c4_put_then_get (rt : Runtime) (t : LispHashTable) (a v : LispObject)
    (h : match t.func with
         | .UserFunc _ cmpfn _ => (rt.call2 cmpfn a a).is_not_nil = true
         | _ => True) :
    map_get rt (map_put rt t a v).1 a = v := by
  have hr : strategyEq rt t.func a a = true := strategyEq_self rt t.func a h
  have hg := listGet_listInsert_self rt t.func a v t.map hr
  simp [map_put, map_get, HashableLispObject.with_hashfunc_and_object, hg]

theorem c4_witness :
    map_get rtDefault
        (map_put rtDefault LispHashTable.new (.int 5) (.int 7)).1 (.int 5)
      = .int 7 :=
  c4_put_then_get rtDefault LispHashTable.new (.int 5) (.int 7) (by trivial)

/-- A key wrapped together with its value under one strategy, as the table's
operations store them. -/
def wrapPair (f : HashFunction) (kv : LispObject × LispObject) :
    HashableLispObject × HashableLispObject :=
  (⟨kv.1, f⟩, ⟨kv.2, f⟩)

/-- Pairwise distinctness of raw keys under a strategy's probe predicate (no
two of them find each other, in either probe direction). -/
abbrev KeysDistinct (rt : Runtime) (f : HashFunction)
    (ks : List LispObject) : Prop :=
  ks.Pairwise fun a b =>
    hMatch rt ⟨a, f⟩ ⟨b, f⟩ = false ∧ hMatch rt ⟨b, f⟩ ⟨a, f⟩ = false

theorem listInsert_append (rt : Runtime) (k v : HashableLispObject)
    (L : List (HashableLispObject × HashableLispObject))
    (h : ∀ p ∈ L, hMatch rt k p.1 = false) :
    listInsert rt k v L = L ++ [(k, v)] := by
  induction L with
  | nil => rfl
  | cons p rest ih =>
    obtain ⟨k2, v2⟩ := p
    have hk := h (k2, v2) (List.mem_cons_self _ _)
    simp [listInsert, hk, ih fun p hp => h p (List.mem_cons_of_mem _ hp)]

theorem putAll_map_eq (rt : Runtime) (f : HashFunction) :
    ∀ (kvs : List (LispObject × LispObject)) (t : LispHashTable),
      t.func = f →
      (∀ kv ∈ kvs, ∀ p ∈ t.map, hMatch rt ⟨kv.1, f⟩ p.1 = false) →
      KeysDistinct rt f (kvs.map Prod.fst) →
      (putAll rt t kvs).map = t.map ++ kvs.map (wrapPair f)
      ∧ (putAll rt t kvs).func = f := by
  intro kvs
  induction kvs with
  | nil => intro t ht _ _; exact ⟨by simp [putAll], by simpa [putAll] using ht⟩
  | cons kv kvs ih =>
    intro t ht hno hdist
    obtain ⟨k, v⟩ := kv
    simp only [List.map_cons] at hdist
    have hins := listInsert_append rt ⟨k, f⟩ ⟨v, f⟩ t.map
      (hno (k, v) (List.mem_cons_self _ _))
    have hstep : (map_put rt t k v).1
        = { t with map := t.map ++ [(⟨k, f⟩, ⟨v, f⟩)] } := by
      simp [map_put, HashableLispObject.with_hashfunc_and_object, ht, hins]
    have hno' : ∀ kv' ∈ kvs,
        ∀ p ∈ (t.map ++ [(⟨k, f⟩, ⟨v, f⟩)]),
          hMatch rt ⟨kv'.1, f⟩ p.1 = false := by
      intro kv' hkv' p hp
      rcases List.mem_append.mp hp with hp | hp
      · exact hno kv' (List.mem_cons_of_mem _ hkv') p hp
      · have hp' : p = (⟨k, f⟩, ⟨v, f⟩) := by simpa using hp
        subst hp'
        exact ((List.pairwise_cons.mp hdist).1 kv'.1
          (List.mem_map_of_mem Prod.fst hkv')).2
    have ihres := ih { t with map := t.map ++ [(⟨k, f⟩, ⟨v, f⟩)] } ht hno'
      (List.pairwise_cons.mp hdist).2
    have hun : putAll rt t ((k, v) :: kvs)
        = putAll rt (map_put rt t k v).1 kvs := rfl
    rw [hun, hstep]
    exact ⟨by rw [ihres.1]; simp [wrapPair], ihres.2⟩

theorem listRemove_sublist_step (rt : Runtime) (f : HashFunction) :
    ∀ (l2 : List (LispObject × LispObject)) (r : LispObject)
      (rs : List LispObject),
      KeysDistinct rt f (l2.map Prod.fst) →
      (∀ a ∈ l2.map Prod.fst, strategyEq rt f a a = true) →
      List.Sublist (r :: rs) (l2.map Prod.fst) →
      ∃ l3 : List (LispObject × LispObject),
        listRemove rt ⟨r, f⟩ (l2.map (wrapPair f)) = l3.map (wrapPair f)
        ∧ List.Sublist l3 l2
        ∧ l3.length + 1 = l2.length
        ∧ List.Sublist rs (l3.map Prod.fst) := by
  intro l2
  induction l2 with
  | nil => intro r rs _ _ hsub; simp at hsub
  | cons qw l2 ih =>
    intro r rs hdist hrefl hsub
    obtain ⟨q, w⟩ := qw
    simp only [List.map_cons] at hsub hdist hrefl
    rcases List.cons_sublist_cons'.mp hsub with hskip | ⟨heq, htail⟩
    · have hrmem : r ∈ l2.map Prod.fst := hskip.subset (List.mem_cons_self _ _)
      have hm : hMatch rt ⟨r, f⟩ ⟨q, f⟩ = false :=
        ((List.pairwise_cons.mp hdist).1 r hrmem).2
      obtain ⟨l3, h1, h2, h3, h4⟩ := ih r rs (List.pairwise_cons.mp hdist).2
        (fun a ha => hrefl a (List.mem_cons_of_mem _ ha)) hskip
      refine ⟨(q, w) :: l3, ?_, List.Sublist.cons₂ _ h2, ?_, ?_⟩
      · simp [wrapPair, listRemove, hm, h1]
      · simp only [List.length_cons]
        omega
      · simp only [List.map_cons]
        exact List.Sublist.cons _ h4
    · subst heq
      have hm : hMatch rt ⟨r, f⟩ ⟨r, f⟩ = true :=
        hMatch_self rt f r (hrefl r (List.mem_cons_self _ _))
      exact ⟨l2, by simp [wrapPair, listRemove, hm],
        List.sublist_cons_self _ _, by simp, htail⟩

theorem rmAll_length (rt : Runtime) (f : HashFunction) :
    ∀ (rs : List LispObject) (l2 : List (LispObject × LispObject))
      (t : LispHashTable),
      t.func = f → t.map = l2.map (wrapPair f) →
      KeysDistinct rt f (l2.map Prod.fst) →
      (∀ a ∈ l2.map Prod.fst, strategyEq rt f a a = true) →
      List.Sublist rs (l2.map Prod.fst) →
      ∃ l4 : List (LispObject × LispObject),
        (rmAll rt t rs).map = l4.map (wrapPair f)
        ∧ l4.length + rs.length = l2.length := by
  intro rs
  induction rs with
  | nil =>
    intro l2 t _ hmap _ _ _
    exact ⟨l2, by simpa [rmAll] using hmap, by simp⟩
  | cons r rs ih =>
    intro l2 t ht hmap hdist hrefl hsub
    obtain ⟨l3, h1, h2, h3, h4⟩ :=
      listRemove_sublist_step rt f l2 r rs hdist hrefl hsub
    have hstep : (map_rm rt t r).map = l3.map (wrapPair f) := by
      simp [map_rm, HashableLispObject.with_hashfunc_and_object, ht, hmap, h1]
    have hdist3 : KeysDistinct rt f (l3.map Prod.fst) :=
      hdist.sublist (h2.map Prod.fst)
    have hrefl3 : ∀ a ∈ l3.map Prod.fst, strategyEq rt f a a = true :=
      fun a ha => hrefl a ((h2.map Prod.fst).subset ha)
    obtain ⟨l4, g1, g2⟩ := ih l3 (map_rm rt t r) ht hstep hdist3 hrefl3 h4
    have hun : rmAll rt t (r :: rs) = rmAll rt (map_rm rt t r) rs := rfl
    refine ⟨l4, by rw [hun]; exact g1, ?_⟩
    simp only [List.length_cons]
    omega

/-- C9: starting from an empty table, inserting `n` pairwise-distinct keys
(under the table's strategy, whose equality is reflexive on them) gives
`count = n`; then removing `k ≤ n` of those keys (a sub-multiset of them,
given as a sublist) gives `count = n - k`; and `clear` resets any table's
count to 0. -/
theorem c9_count_evolution (rt : Runtime) (t : LispHashTable)
    (kvs : List (LispObject × LispObject)) (rs : List LispObject)
    (hempty : t.map = [])
    (hdist : KeysDistinct rt t.func (kvs.map Prod.fst))
    (hrefl : ∀ a ∈ kvs.map Prod.fst, strategyEq rt t.func a a = true)
    (hsub : List.Sublist rs (kvs.map Prod.fst)) :
    map_count (putAll rt t kvs) = LispObject.int (kvs.length : Int)
    ∧ map_count (rmAll rt (putAll rt t kvs) rs)
        = LispObject.int ((kvs.length : Int) - (rs.length : Int))
    ∧ ∀ u : LispHashTable, map_count (map_clear u) = LispObject.int 0 := by
  obtain ⟨hpm, hpf⟩ := putAll_map_eq rt t.func kvs t rfl
    (by intro kv _ p hp; rw [hempty] at hp; exact absurd hp (List.not_mem_nil p))
    hdist
  rw [hempty] at hpm
  simp only [List.nil_append] at hpm
  have hcnt1 : map_count (putAll rt t kvs) = LispObject.int (kvs.length : Int) := by
    rw [map_count, hpm]
    simp
  refine ⟨hcnt1, ?_, fun u => by simp [map_count, map_clear]⟩
  obtain ⟨l4, g1, g2⟩ := rmAll_length rt t.func rs kvs (putAll rt t kvs)
    hpf hpm hdist hrefl hsub
  rw [map_count, g1]
  simp only [List.length_map]
  have hle : rs.length ≤ kvs.length := hsub.length_le.trans (by simp)
  have : (l4.length : Int) = (kvs.length : Int) - (rs.length : Int) := by omega
  rw [this]

theorem c9_witness :
    map_count (putAll rtDefault LispHashTable.new
        [(.int 1, .int 10), (.int 2, .int 20), (.int 3, .int 30)])
      = LispObject.int 3
    ∧ map_count (rmAll rtDefault
        (putAll rtDefault LispHashTable.new
          [(.int 1, .int 10), (.int 2, .int 20), (.int 3, .int 30)])
        [.int 1, .int 3])
      = LispObject.int 1 := by
  have h := c9_count_evolution rtDefault LispHashTable.new
    [(.int 1, .int 10), (.int 2, .int 20), (.int 3, .int 30)]
    [.int 1, .int 3] rfl (by decide) (by decide) (by decide)
  exact ⟨by simpa using h.1, by simpa using h.2.1⟩

end Remacs
